import Mathlib

/-!
Verification of the hdhomerun_proxy repository: the message framing codec
(message_codec.py, class MessageCodec), the envelope packing shared by the two
agents (struct format !4sH{n}s), and the message handlers of the two agents
(hdhomerun_app_proxy.py class AppProxy, hdhomerun_tuner_proxy.py class
TunerProxy). Bytes are modelled as Nat and byte strings as List Nat.
-/

namespace HdhomerunProxy

namespace MessageCodec

/-- State of a MessageCodec instance: the three instance attributes set by
MessageCodec.__init__ (msg_buffer, length_bytes_remaining,
msg_bytes_remaining). -/
structure State where
  msg_buffer : List Nat
  length_bytes_remaining : Nat
  msg_bytes_remaining : Nat
deriving DecidableEq, Repr

/-- The state built by MessageCodec.__init__: empty buffer, 2 length bytes
remaining, 0 message bytes remaining. -/
def initState : State := ⟨[], 2, 0⟩

/-- Models MessageCodec.encode: struct.pack with format >H{n}s prepends the
2-byte big-endian length of data. struct.pack raises struct.error when the
H field value len(data) exceeds 65535, modelled as none. -/
def encode (data : List Nat) : Option (List Nat) :=
  if data.length ≤ 65535 then
    some (data.length / 256 :: data.length % 256 :: data)
  else
    none

/-- Models the inner while loop of MessageCodec.decode, which consumes one
input byte per iteration while length_bytes_remaining is nonzero, oring each
byte into msg_bytes_remaining shifted by 8 times the decremented
length_bytes_remaining. Returns the updated state and the unconsumed input.
The loop also ends when the input runs out, leaving length_bytes_remaining
nonzero (the Python code then returns from decode). -/
def readLen (s : State) : List Nat → State × List Nat
  | [] => (s, [])
  | b :: rest =>
    if s.length_bytes_remaining = 0 then
      (s, b :: rest)
    else
      readLen ⟨s.msg_buffer, s.length_bytes_remaining - 1,
        s.msg_bytes_remaining ||| (b <<< ((s.length_bytes_remaining - 1) * 8))⟩ rest

/-- Models the outer while True loop of MessageCodec.decode. One iteration:
run the length loop; if length bytes are still missing return; otherwise read
data[i : i + msg_bytes_remaining] into msg_buffer; if body bytes are still
missing return; otherwise the message is complete: reset the state to
initState (the Python code resets before invoking the callback) and loop on
the remaining input. Callback invocations are modelled by the returned list
of delivered message bodies, in invocation order. The loop always terminates;
fuel bounds the number of iterations and any fuel of at least
data.length + 2 gives the same result (lemma decodeLoop_stable below), since
every iteration that does not return consumes at least one input byte, except
that a first iteration starting from a state with no length bytes and no body
bytes remaining delivers the buffered message without consuming input. -/
def decodeLoop : Nat → State → List Nat → State × List (List Nat)
  | 0, s, _ => (s, [])
  | fuel + 1, s, data =>
    let p := readLen s data
    let s1 := p.1
    let rest := p.2
    if s1.length_bytes_remaining ≠ 0 then
      (s1, [])
    else
      let data_read := rest.take s1.msg_bytes_remaining
      let s2 : State := ⟨s1.msg_buffer ++ data_read, 0,
        s1.msg_bytes_remaining - data_read.length⟩
      let rest2 := rest.drop s1.msg_bytes_remaining
      if s2.msg_bytes_remaining ≠ 0 then
        (s2, [])
      else
        let r := decodeLoop fuel initState rest2
        (r.1, s2.msg_buffer :: r.2)

/-- Models MessageCodec.decode: runs the outer loop with enough fuel for any
input (data.length + 2 iterations always suffice). Returns the state of the
codec after the call together with the message bodies passed to
message_callback, in invocation order. -/
def decode (s : State) (data : List Nat) : State × List (List Nat) :=
  decodeLoop (data.length + 2) s data

/-- Feeds a sequence of chunks to one MessageCodec instance in order, as
successive data_received calls do: the state left by each decode call is the
input state of the next. Returns the final state and all delivered message
bodies in order. -/
def decodeChunks (s : State) : List (List Nat) → State × List (List Nat)
  | [] => (s, [])
  | c :: cs =>
    let r := decode s c
    let r2 := decodeChunks r.1 cs
    (r2.1, r.2 ++ r2.2)

/-- Instrumented copy of decodeLoop that records, for each callback
invocation, the values of the three state attributes at the moment
message_callback is invoked, together with the delivered body. In the source
the three attributes are assigned their initial values on the lines directly
before the callback invocation, so the recorded state is the value the
callback can observe on entry. -/
def decodeLoopTrace : Nat → State → List Nat → List (State × List Nat)
  | 0, _, _ => []
  | fuel + 1, s, data =>
    let p := readLen s data
    let s1 := p.1
    let rest := p.2
    if s1.length_bytes_remaining ≠ 0 then
      []
    else
      let data_read := rest.take s1.msg_bytes_remaining
      let s2 : State := ⟨s1.msg_buffer ++ data_read, 0,
        s1.msg_bytes_remaining - data_read.length⟩
      let rest2 := rest.drop s1.msg_bytes_remaining
      if s2.msg_bytes_remaining ≠ 0 then
        []
      else
        (initState, s2.msg_buffer) :: decodeLoopTrace fuel initState rest2

/-- Trace of one MessageCodec.decode call: the state observable by the
callback at each invocation, with the delivered body. -/
def decodeTrace (s : State) (data : List Nat) : List (State × List Nat) :=
  decodeLoopTrace (data.length + 2) s data

end MessageCodec

/-- Models struct.pack with format !4sH{n}s as used by
TunerProxy.UdpProtocol.datagram_received and AppProxy.TcpServerProtocol.reply:
a 4s field (addr padded with zero bytes or truncated to exactly 4 bytes),
a big-endian H field (raises struct.error when port exceeds 65535, modelled
as none), and the payload bytes verbatim. -/
def pack_4sH (addr : List Nat) (port : Nat) (payload : List Nat) : Option (List Nat) :=
  if port ≤ 65535 then
    some ((addr ++ List.replicate 4 0).take 4 ++ port / 256 :: port % 256 :: payload)
  else
    none

/-- Models struct.unpack with format !4sH{len(msg) - 6}s as used by
AppProxy.TcpServerProtocol.on_received_message and
TunerProxy.TCPClientProtocol._on_message_received_from_app_proxy: the first 4
bytes are the address, the next 2 bytes the big-endian port, the remainder
the payload. When len(msg) < 6 the Python expression len(msg) - 6 is
negative and the resulting format string makes struct.unpack raise
struct.error, modelled as none. -/
def unpack_4sH (msg : List Nat) : Option (List Nat × Nat × List Nat) :=
  match msg with
  | a0 :: a1 :: a2 :: a3 :: p0 :: p1 :: payload =>
    some ([a0, a1, a2, a3], 256 * p0 + p1, payload)
  | _ => none

namespace AppProxy

/-- Models AppProxy.TcpServerProtocol.on_received_message up to its unpack:
the envelope fields extracted from a complete frame body, or none when
struct.unpack raises. The extracted query_data is then broadcast by
ClientDatagramProtocol.query_tuner with a reply callback closing over the
extracted source address and port. -/
def on_received_message (msg : List Nat) : Option (List Nat × Nat × List Nat) :=
  unpack_4sH msg

/-- Models AppProxy.TcpServerProtocol.reply: the bytes written to the tunnel
transport for one reply datagram, namely the codec framing of the envelope
packing of the original source address, original source port and the reply
bytes. none models a struct.error escaping (port out of range or frame body
longer than 65535 bytes), in which case nothing is written. -/
def reply (source_addr : List Nat) (source_port : Nat) (reply_data : List Nat) :
    Option (List Nat) :=
  (pack_4sH source_addr source_port reply_data).bind MessageCodec.encode

/-- Models the sequence of on_received_message invocations performed inside
one MessageCodec.decode call, with Python exception propagation: each
delivered body is passed to on_received_message; when its struct.unpack
raises, the exception unwinds through the decode loop, so no later message of
the same call is assembled or delivered, and asyncio then closes the
transport. Returns the envelopes extracted before the first failure and
whether an exception escaped. The handled envelopes and the abort flag match
a run of the pure decoder because the callback never writes the codec state. -/
def run_on_received_message : List (List Nat) → List (List Nat × Nat × List Nat) × Bool
  | [] => ([], false)
  | m :: ms =>
    match on_received_message m with
    | none => ([], true)
    | some e =>
      let r := run_on_received_message ms
      (e :: r.1, r.2)

/-- Models AppProxy.TcpServerProtocol.data_received on one chunk: the chunk
is fed to the shared codec, each delivered body goes to on_received_message,
and a struct.error from a malformed body propagates out of the decode loop.
Returns the envelopes handled from this chunk and whether an exception
escaped (in which case asyncio closes the transport). -/
def data_received (s : MessageCodec.State) (chunk : List Nat) :
    List (List Nat × Nat × List Nat) × Bool :=
  run_on_received_message (MessageCodec.decode s chunk).2

end AppProxy

namespace TunerProxy

/-- Models TunerProxy.TCPClientProtocol._on_message_received_from_app_proxy:
the frame body is unpacked and the payload is sent as a UDP datagram to the
unpacked address and port. inet_ntoa only converts the 4 address bytes to the
dotted string passed to sendto, so the destination is modelled by the 4
address bytes themselves. Returns the sendto destination and data, or none
when struct.unpack raises. -/
def on_message_received_from_app_proxy (msg : List Nat) :
    Option ((List Nat × Nat) × List Nat) :=
  (unpack_4sH msg).map fun e => ((e.1, e.2.1), e.2.2)

/-- Models TunerProxy.UdpProtocol.datagram_received: when
TunerProxy.tcp_transport is None the datagram is ignored entirely (the body
of the method is one if statement and there is no queue to hold the
datagram); when a transport is present the datagram is packed into an
envelope carrying its source address and port, framed by the shared codec,
and the result is written to the transport. inet_aton is modelled by taking
the 4 source address bytes directly. Returns the bytes written to the tunnel,
or none when nothing is written. -/
def datagram_received (tcp_transport : Option Unit) (ip : List Nat) (port : Nat)
    (data : List Nat) : Option (List Nat) :=
  match tcp_transport with
  | none => none
  | some _ => (pack_4sH ip port data).bind MessageCodec.encode

end TunerProxy

namespace MessageCodec

lemma readLen_nil (s : State) : readLen s [] = (s, []) := rfl

lemma readLen_zero (s : State) (data : List Nat)
    (h : s.length_bytes_remaining = 0) : readLen s data = (s, data) := by
  cases data with
  | nil => rfl
  | cons b rest => simp [readLen, h]

lemma readLen_le (s : State) (data : List Nat) :
    (readLen s data).2.length ≤ data.length := by
  induction data generalizing s with
  | nil => simp [readLen_nil]
  | cons b rest ih =>
    by_cases h : s.length_bytes_remaining = 0
    · simp [readLen, h]
    · simpa [readLen, h] using Nat.le_succ_of_le (ih _)

lemma readLen_buffer (s : State) (data : List Nat) :
    (readLen s data).1.msg_buffer = s.msg_buffer := by
  induction data generalizing s with
  | nil => rfl
  | cons b rest ih =>
    by_cases h : s.length_bytes_remaining = 0
    · simp [readLen, h]
    · simpa [readLen, h] using ih _

lemma readLen_rest_nil (s : State) (data : List Nat)
    (h : (readLen s data).1.length_bytes_remaining ≠ 0) : (readLen s data).2 = [] := by
  induction data generalizing s with
  | nil => rfl
  | cons b rest ih =>
    by_cases h0 : s.length_bytes_remaining = 0
    · simp [readLen, h0] at h
    · simp only [readLen, if_neg h0] at h ⊢
      exact ih _ h

lemma readLen_consume (s : State) (data : List Nat)
    (h : s.length_bytes_remaining ≠ 0)
    (h2 : (readLen s data).1.length_bytes_remaining = 0) :
    (readLen s data).2.length < data.length := by
  cases data with
  | nil => simp [readLen_nil] at h2; exact absurd h2 h
  | cons b rest =>
    simp only [readLen, if_neg h]
    calc (readLen _ rest).2.length ≤ rest.length := readLen_le _ _
      _ < (b :: rest).length := by simp

lemma readLen_append (s : State) (xs ys : List Nat) :
    readLen s (xs ++ ys) = readLen (readLen s xs).1 ((readLen s xs).2 ++ ys) := by
  induction xs generalizing s with
  | nil => simp [readLen_nil]
  | cons b rest ih =>
    by_cases h : s.length_bytes_remaining = 0
    · simp [readLen, h, readLen_zero]
    · simp only [List.cons_append, readLen, if_neg h]
      exact ih _

/-- Fuel sufficient for decodeLoop to reach a return of the Python loop: one
iteration per input byte, one final returning iteration, and one extra
iteration for the case in which the entry state has no length bytes and no
body bytes remaining (then the buffered message is delivered without
consuming input). -/
def fuelNeed (s : State) (data : List Nat) : Nat :=
  data.length +
    (if s.length_bytes_remaining = 0 ∧ s.msg_bytes_remaining = 0 then 2 else 1)

lemma fuelNeed_pos (s : State) (data : List Nat) : 1 ≤ fuelNeed s data := by
  unfold fuelNeed
  split <;> omega

lemma fuelNeed_initState (data : List Nat) :
    fuelNeed initState data = data.length + 1 := by
  simp [fuelNeed, initState]

lemma decodeLoop_succ_stuck (fuel : Nat) (s : State) (data : List Nat)
    (h : (readLen s data).1.length_bytes_remaining ≠ 0) :
    decodeLoop (fuel + 1) s data = ((readLen s data).1, []) := by
  simp only [decodeLoop]
  rw [if_pos h]

lemma decodeLoop_succ_more (fuel : Nat) (s : State) (data : List Nat)
    (h : (readLen s data).1.length_bytes_remaining = 0)
    (h2 : (readLen s data).2.length < (readLen s data).1.msg_bytes_remaining) :
    decodeLoop (fuel + 1) s data =
      (⟨(readLen s data).1.msg_buffer ++ (readLen s data).2, 0,
        (readLen s data).1.msg_bytes_remaining - (readLen s data).2.length⟩, []) := by
  simp only [decodeLoop]
  rw [if_neg (by simp [h])]
  have htake : (readLen s data).2.take (readLen s data).1.msg_bytes_remaining =
      (readLen s data).2 := List.take_of_length_le (Nat.le_of_lt h2)
  rw [if_pos (by simp [htake]; omega)]
  simp [htake]

lemma decodeLoop_succ_msg (fuel : Nat) (s : State) (data : List Nat)
    (h : (readLen s data).1.length_bytes_remaining = 0)
    (h2 : (readLen s data).1.msg_bytes_remaining ≤ (readLen s data).2.length) :
    decodeLoop (fuel + 1) s data =
      ((decodeLoop fuel initState
          ((readLen s data).2.drop (readLen s data).1.msg_bytes_remaining)).1,
        ((readLen s data).1.msg_buffer ++
          (readLen s data).2.take (readLen s data).1.msg_bytes_remaining) ::
        (decodeLoop fuel initState
          ((readLen s data).2.drop (readLen s data).1.msg_bytes_remaining)).2) := by
  simp only [decodeLoop]
  rw [if_neg (by simp [h])]
  rw [if_neg (by simp [List.length_take]; omega)]

lemma fuelNeed_rec (s : State) (data : List Nat) (fuel : Nat)
    (hf : fuelNeed s data ≤ fuel + 1)
    (hl : (readLen s data).1.length_bytes_remaining = 0)
    (hm : (readLen s data).1.msg_bytes_remaining ≤ (readLen s data).2.length) :
    fuelNeed initState
      ((readLen s data).2.drop (readLen s data).1.msg_bytes_remaining) ≤ fuel := by
  rw [fuelNeed_initState, List.length_drop]
  by_cases h0 : s.length_bytes_remaining = 0
  · rw [readLen_zero s data h0] at hl hm ⊢
    have hm2 : s.msg_bytes_remaining ≤ data.length := hm
    show data.length - s.msg_bytes_remaining + 1 ≤ fuel
    by_cases hmb : s.msg_bytes_remaining = 0
    · unfold fuelNeed at hf
      rw [if_pos ⟨h0, hmb⟩] at hf
      omega
    · unfold fuelNeed at hf
      rw [if_neg (by simp [h0, hmb])] at hf
      omega
  · have hc := readLen_consume s data h0 hl
    unfold fuelNeed at hf
    rw [if_neg (by simp [h0])] at hf
    omega

lemma decodeLoop_stable : ∀ fuel fuel2 (s : State) (data : List Nat),
    fuelNeed s data ≤ fuel → fuelNeed s data ≤ fuel2 →
    decodeLoop fuel s data = decodeLoop fuel2 s data := by
  intro fuel
  induction fuel with
  | zero =>
    intro fuel2 s data h _
    exact absurd (Nat.le_trans (fuelNeed_pos s data) h) (by omega)
  | succ f ih =>
    intro fuel2 s data h h2
    obtain ⟨g, rfl⟩ : ∃ g, fuel2 = g + 1 := by
      cases fuel2 with
      | zero => exact absurd (Nat.le_trans (fuelNeed_pos s data) h2) (by omega)
      | succ g => exact ⟨g, rfl⟩
    by_cases hl : (readLen s data).1.length_bytes_remaining = 0
    · by_cases hm : (readLen s data).1.msg_bytes_remaining ≤ (readLen s data).2.length
      · rw [decodeLoop_succ_msg f s data hl hm, decodeLoop_succ_msg g s data hl hm,
          ih g initState _ (fuelNeed_rec s data f h hl hm)
            (fuelNeed_rec s data g h2 hl hm)]
      · rw [decodeLoop_succ_more f s data hl (by omega),
          decodeLoop_succ_more g s data hl (by omega)]
    · rw [decodeLoop_succ_stuck f s data hl, decodeLoop_succ_stuck g s data hl]

lemma fuelNeed_le (s : State) (data : List Nat) : fuelNeed s data ≤ data.length + 2 := by
  unfold fuelNeed
  split <;> omega

lemma decode_eq_loop (s : State) (data : List Nat) (fuel : Nat)
    (h : fuelNeed s data ≤ fuel) : decode s data = decodeLoop fuel s data :=
  decodeLoop_stable _ _ s data (fuelNeed_le s data) h

/-- Processing a concatenation in one decode call equals processing the two
pieces in successive calls, threading the state and concatenating the
delivered messages: the codec is a faithful stream processor. -/
lemma decode_append (s : State) (xs ys : List Nat) :
    decode s (xs ++ ys) =
      ((decode (decode s xs).1 ys).1,
        (decode s xs).2 ++ (decode (decode s xs).1 ys).2) := by
  have main : ∀ fuel (s : State) (xs ys : List Nat), fuelNeed s (xs ++ ys) ≤ fuel →
      decodeLoop fuel s (xs ++ ys) =
        ((decode (decode s xs).1 ys).1,
          (decode s xs).2 ++ (decode (decode s xs).1 ys).2) := by
    intro fuel
    induction fuel with
    | zero =>
      intro s xs ys h
      exact absurd (Nat.le_trans (fuelNeed_pos _ _) h) (by omega)
    | succ f ih =>
      intro s xs ys h
      have hlen : xs.length + ys.length + 1 ≤ f + 1 := by
        have := h
        unfold fuelNeed at this
        rw [List.length_append] at this
        split at this <;> omega
      by_cases hl : (readLen s xs).1.length_bytes_remaining = 0
      · -- the length field is complete after xs
        have hra : readLen s (xs ++ ys) = ((readLen s xs).1, (readLen s xs).2 ++ ys) := by
          rw [readLen_append, readLen_zero _ _ hl]
        have hl2 : (readLen s (xs ++ ys)).1.length_bytes_remaining = 0 := by
          rw [hra]; exact hl
        by_cases hm : (readLen s xs).1.msg_bytes_remaining ≤ (readLen s xs).2.length
        · -- the body also completes within xs
          have hm2 : (readLen s (xs ++ ys)).1.msg_bytes_remaining ≤
              (readLen s (xs ++ ys)).2.length := by
            rw [hra]
            simp only [List.length_append]
            omega
          have hfr := fuelNeed_rec s (xs ++ ys) f h hl2 hm2
          rw [hra] at hfr
          have hdrop : ((readLen s xs).2 ++ ys).drop (readLen s xs).1.msg_bytes_remaining =
              (readLen s xs).2.drop (readLen s xs).1.msg_bytes_remaining ++ ys :=
            List.drop_append_of_le_length hm
          rw [hdrop] at hfr
          have htake : ((readLen s xs).2 ++ ys).take (readLen s xs).1.msg_bytes_remaining =
              (readLen s xs).2.take (readLen s xs).1.msg_bytes_remaining :=
            List.take_append_of_le_length hm
          rw [decodeLoop_succ_msg f s (xs ++ ys) hl2 hm2]
          rw [show (readLen s (xs ++ ys)).1 = (readLen s xs).1 from by rw [hra]]
          rw [show (readLen s (xs ++ ys)).2 = (readLen s xs).2 ++ ys from by rw [hra]]
          rw [hdrop, htake]
          rw [ih initState _ ys hfr]
          have hdx : decode s xs =
              ((decode initState
                  ((readLen s xs).2.drop (readLen s xs).1.msg_bytes_remaining)).1,
                ((readLen s xs).1.msg_buffer ++
                  (readLen s xs).2.take (readLen s xs).1.msg_bytes_remaining) ::
                (decode initState
                  ((readLen s xs).2.drop (readLen s xs).1.msg_bytes_remaining)).2) := by
            show decodeLoop (xs.length + 1 + 1) s xs = _
            rw [decodeLoop_succ_msg (xs.length + 1) s xs hl hm]
            rw [← decode_eq_loop _ _ _ (by
              rw [fuelNeed_initState, List.length_drop]
              have := readLen_le s xs
              omega)]
          rw [hdx]
          simp
        · -- the body needs bytes beyond xs
          push_neg at hm
          have hdx : decode s xs =
              (⟨(readLen s xs).1.msg_buffer ++ (readLen s xs).2, 0,
                (readLen s xs).1.msg_bytes_remaining - (readLen s xs).2.length⟩, []) := by
            show decodeLoop (xs.length + 1 + 1) s xs = _
            exact decodeLoop_succ_more (xs.length + 1) s xs hl hm
          rw [hdx]
          simp only [List.nil_append]
          by_cases hc : (readLen s xs).1.msg_bytes_remaining ≤
              (readLen s xs).2.length + ys.length
          · -- the body completes within ys
            have hm2 : (readLen s (xs ++ ys)).1.msg_bytes_remaining ≤
                (readLen s (xs ++ ys)).2.length := by
              rw [hra]
              simp only [List.length_append]
              omega
            have hfr := fuelNeed_rec s (xs ++ ys) f h hl2 hm2
            rw [hra] at hfr
            rw [decodeLoop_succ_msg f s (xs ++ ys) hl2 hm2]
            rw [show (readLen s (xs ++ ys)).1 = (readLen s xs).1 from by rw [hra]]
            rw [show (readLen s (xs ++ ys)).2 = (readLen s xs).2 ++ ys from by rw [hra]]
            have htake : ((readLen s xs).2 ++ ys).take (readLen s xs).1.msg_bytes_remaining =
                (readLen s xs).2 ++
                  ys.take ((readLen s xs).1.msg_bytes_remaining - (readLen s xs).2.length) := by
              rw [List.take_append_eq_append_take,
                List.take_of_length_le (Nat.le_of_lt hm)]
            have hdrop : ((readLen s xs).2 ++ ys).drop (readLen s xs).1.msg_bytes_remaining =
                ys.drop ((readLen s xs).1.msg_bytes_remaining - (readLen s xs).2.length) := by
              rw [List.drop_append_eq_append_drop,
                List.drop_eq_nil_of_le (Nat.le_of_lt hm), List.nil_append]
            rw [htake, hdrop]
            rw [hdrop] at hfr
            -- unfold the right hand side decode once
            have hz : readLen
                ⟨(readLen s xs).1.msg_buffer ++ (readLen s xs).2, 0,
                  (readLen s xs).1.msg_bytes_remaining - (readLen s xs).2.length⟩ ys =
                (⟨(readLen s xs).1.msg_buffer ++ (readLen s xs).2, 0,
                  (readLen s xs).1.msg_bytes_remaining - (readLen s xs).2.length⟩, ys) :=
              readLen_zero _ _ rfl
            have hb1 : (readLen
                (⟨(readLen s xs).1.msg_buffer ++ (readLen s xs).2, 0,
                  (readLen s xs).1.msg_bytes_remaining - (readLen s xs).2.length⟩ : State)
                ys).1.length_bytes_remaining = 0 := by
              rw [hz]
            have hb2 : (readLen
                (⟨(readLen s xs).1.msg_buffer ++ (readLen s xs).2, 0,
                  (readLen s xs).1.msg_bytes_remaining - (readLen s xs).2.length⟩ : State)
                ys).1.msg_bytes_remaining ≤ (readLen
                (⟨(readLen s xs).1.msg_buffer ++ (readLen s xs).2, 0,
                  (readLen s xs).1.msg_bytes_remaining - (readLen s xs).2.length⟩ : State)
                ys).2.length := by
              rw [hz]
              show (readLen s xs).1.msg_bytes_remaining - (readLen s xs).2.length ≤ ys.length
              omega
            have hrhs : decode
                ⟨(readLen s xs).1.msg_buffer ++ (readLen s xs).2, 0,
                  (readLen s xs).1.msg_bytes_remaining - (readLen s xs).2.length⟩ ys =
                ((decodeLoop (ys.length + 1) initState
                    (ys.drop ((readLen s xs).1.msg_bytes_remaining -
                      (readLen s xs).2.length))).1,
                  (((readLen s xs).1.msg_buffer ++ (readLen s xs).2) ++
                    ys.take ((readLen s xs).1.msg_bytes_remaining -
                      (readLen s xs).2.length)) ::
                  (decodeLoop (ys.length + 1) initState
                    (ys.drop ((readLen s xs).1.msg_bytes_remaining -
                      (readLen s xs).2.length))).2) := by
              show decodeLoop (ys.length + 1 + 1) _ ys = _
              rw [decodeLoop_succ_msg (ys.length + 1) _ ys hb1 hb2, hz]
            rw [hrhs]
            rw [← decodeLoop_stable f (ys.length + 1) initState _ hfr (by
              rw [fuelNeed_initState, List.length_drop]
              omega)]
            simp [List.append_assoc]
          · -- the body does not even complete within ys
            push_neg at hc
            have hm2 : (readLen s (xs ++ ys)).2.length <
                (readLen s (xs ++ ys)).1.msg_bytes_remaining := by
              rw [hra]
              simp only [List.length_append]
              omega
            rw [decodeLoop_succ_more f s (xs ++ ys)
              (by rw [hra]; exact hl) hm2]
            rw [show (readLen s (xs ++ ys)).1 = (readLen s xs).1 from by rw [hra]]
            rw [show (readLen s (xs ++ ys)).2 = (readLen s xs).2 ++ ys from by rw [hra]]
            have hz : readLen
                ⟨(readLen s xs).1.msg_buffer ++ (readLen s xs).2, 0,
                  (readLen s xs).1.msg_bytes_remaining - (readLen s xs).2.length⟩ ys =
                (⟨(readLen s xs).1.msg_buffer ++ (readLen s xs).2, 0,
                  (readLen s xs).1.msg_bytes_remaining - (readLen s xs).2.length⟩, ys) :=
              readLen_zero _ _ rfl
            have hb1 : (readLen
                (⟨(readLen s xs).1.msg_buffer ++ (readLen s xs).2, 0,
                  (readLen s xs).1.msg_bytes_remaining - (readLen s xs).2.length⟩ : State)
                ys).1.length_bytes_remaining = 0 := by
              rw [hz]
            have hb2 : (readLen
                (⟨(readLen s xs).1.msg_buffer ++ (readLen s xs).2, 0,
                  (readLen s xs).1.msg_bytes_remaining - (readLen s xs).2.length⟩ : State)
                ys).2.length < (readLen
                (⟨(readLen s xs).1.msg_buffer ++ (readLen s xs).2, 0,
                  (readLen s xs).1.msg_bytes_remaining - (readLen s xs).2.length⟩ : State)
                ys).1.msg_bytes_remaining := by
              rw [hz]
              show ys.length < (readLen s xs).1.msg_bytes_remaining - (readLen s xs).2.length
              omega
            have hrhs : decode
                ⟨(readLen s xs).1.msg_buffer ++ (readLen s xs).2, 0,
                  (readLen s xs).1.msg_bytes_remaining - (readLen s xs).2.length⟩ ys =
                (⟨((readLen s xs).1.msg_buffer ++ (readLen s xs).2) ++ ys, 0,
                  ((readLen s xs).1.msg_bytes_remaining - (readLen s xs).2.length) -
                    ys.length⟩, []) := by
              show decodeLoop (ys.length + 1 + 1) _ ys = _
              rw [decodeLoop_succ_more (ys.length + 1) _ ys hb1 hb2, hz]
            rw [hrhs]
            have hbuf : (readLen s xs).1.msg_buffer ++ ((readLen s xs).2 ++ ys) =
                ((readLen s xs).1.msg_buffer ++ (readLen s xs).2) ++ ys :=
              (List.append_assoc _ _ _).symm
            have hnum : (readLen s xs).1.msg_bytes_remaining -
                ((readLen s xs).2 ++ ys).length =
                (readLen s xs).1.msg_bytes_remaining - (readLen s xs).2.length -
                  ys.length := by
              rw [List.length_append]
              omega
            rw [hbuf, hnum]
      · -- the length field is still incomplete after xs
        have hnil : (readLen s xs).2 = [] := readLen_rest_nil s xs hl
        have hra : readLen s (xs ++ ys) = readLen (readLen s xs).1 ys := by
          rw [readLen_append, hnil, List.nil_append]
        have key : decodeLoop (f + 1) s (xs ++ ys) =
            decodeLoop (f + 1) (readLen s xs).1 ys := by
          simp only [decodeLoop]
          rw [hra]
        have hdx : decode s xs = ((readLen s xs).1, []) := by
          show decodeLoop (xs.length + 1 + 1) s xs = _
          exact decodeLoop_succ_stuck (xs.length + 1) s xs hl
        rw [key, hdx]
        rw [← decode_eq_loop _ _ _ (by
          unfold fuelNeed
          rw [if_neg (by simp [hl])]
          omega)]
        simp
  exact main ((xs ++ ys).length + 2) s xs ys (fuelNeed_le s (xs ++ ys))

/-- States in which the decode loop is between frames or inside a frame. Any
state the codec can actually be left in between decode calls satisfies this:
the Python decode returns either from inside the length loop (nonzero
length_bytes_remaining) or right after finding nonzero msg_bytes_remaining. -/
def Nondegenerate (s : State) : Prop :=
  s.length_bytes_remaining ≠ 0 ∨ s.msg_bytes_remaining ≠ 0

lemma initState_nondegenerate : Nondegenerate initState :=
  Or.inl (by simp [initState])

lemma decodeLoop_nondeg : ∀ fuel (s : State) (data : List Nat),
    fuelNeed s data ≤ fuel → Nondegenerate (decodeLoop fuel s data).1 := by
  intro fuel
  induction fuel with
  | zero =>
    intro s data h
    exact absurd (Nat.le_trans (fuelNeed_pos s data) h) (by omega)
  | succ f ih =>
    intro s data h
    by_cases hl : (readLen s data).1.length_bytes_remaining = 0
    · by_cases hm : (readLen s data).1.msg_bytes_remaining ≤ (readLen s data).2.length
      · rw [decodeLoop_succ_msg f s data hl hm]
        exact ih initState _ (fuelNeed_rec s data f h hl hm)
      · rw [decodeLoop_succ_more f s data hl (by omega)]
        exact Or.inr (by show _ - _ ≠ 0; omega)
    · rw [decodeLoop_succ_stuck f s data hl]
      exact Or.inl hl

lemma decode_nondeg (s : State) (data : List Nat) :
    Nondegenerate (decode s data).1 :=
  decodeLoop_nondeg _ s data (fuelNeed_le s data)

lemma decode_nil (s : State) (h : Nondegenerate s) : decode s [] = (s, []) := by
  rcases h with h | h
  · show decodeLoop 2 s [] = (s, [])
    rw [decodeLoop_succ_stuck 1 s [] (by rw [readLen_nil]; exact h), readLen_nil]
  · by_cases hl : s.length_bytes_remaining = 0
    · cases s with
      | mk buf lb mb =>
        show decodeLoop 2 ⟨buf, lb, mb⟩ [] = (⟨buf, lb, mb⟩, [])
        simp only at hl h
        subst hl
        rw [decodeLoop_succ_more 1 ⟨buf, 0, mb⟩ []
          (by rw [readLen_nil])
          (by rw [readLen_nil]; show 0 < mb; omega)]
        rw [readLen_nil]
        show ((⟨buf ++ [], 0, mb - 0⟩ : State), ([] : List (List Nat))) =
          ((⟨buf, 0, mb⟩ : State), ([] : List (List Nat)))
        rw [List.append_nil, Nat.sub_zero]
    · show decodeLoop 2 s [] = (s, [])
      rw [decodeLoop_succ_stuck 1 s [] (by rw [readLen_nil]; exact hl), readLen_nil]

/-- Feeding chunks one call at a time equals one call on their concatenation,
for any state the codec can be in between calls. -/
lemma decodeChunks_flatten (s : State) (css : List (List Nat))
    (h : Nondegenerate s) : decodeChunks s css = decode s css.flatten := by
  induction css generalizing s with
  | nil =>
    show (s, []) = decode s []
    rw [decode_nil s h]
  | cons c cs ih =>
    show ((decodeChunks (decode s c).1 cs).1,
        (decode s c).2 ++ (decodeChunks (decode s c).1 cs).2) = _
    rw [ih _ (decode_nondeg s c), List.flatten, decode_append s c cs.flatten]

/-- Bit arithmetic of the length field: the accumulated value of the two
big-endian bytes. -/
lemma lor_byte (a b : Nat) (hb : b < 256) : a <<< 8 ||| b = 256 * a + b := by
  apply Nat.eq_of_testBit_eq
  intro i
  rw [Nat.testBit_lor, Nat.testBit_shiftLeft]
  rcases Nat.lt_or_ge i 8 with h | h
  · have h8 : ¬ (8 ≤ i) := by omega
    have hmod : (256 * a + b) % 2 ^ 8 = b := by
      have h256 : (256 : Nat) = 2 ^ 8 := by norm_num
      omega
    have h2 : (256 * a + b).testBit i = ((256 * a + b) % 2 ^ 8).testBit i := by
      rw [Nat.testBit_mod_two_pow]
      simp [h]
    rw [h2, hmod]
    simp [h8]
  · have hble : b.testBit i = false := by
      apply Nat.testBit_lt_two_pow
      calc b < 256 := hb
        _ = 2 ^ 8 := by norm_num
        _ ≤ 2 ^ i := Nat.pow_le_pow_right (by norm_num) h
    obtain ⟨j, rfl⟩ : ∃ j, i = 8 + j := ⟨i - 8, by omega⟩
    have hsh : (256 * a + b) >>> 8 = a := by
      rw [Nat.shiftRight_eq_div_pow]
      have h256 : (256 : Nat) = 2 ^ 8 := by norm_num
      omega
    have ht : ((256 * a + b) >>> 8).testBit j = (256 * a + b).testBit (8 + j) :=
      Nat.testBit_shiftRight (256 * a + b)
    rw [hble, Bool.or_false, ← ht, hsh]
    simp [h]

/-- Running the length loop from the initial state on a stream beginning with
the two length bytes produced by encode consumes exactly those two bytes and
accumulates the encoded length. -/
lemma readLen_two (hh ll : Nat) (b : List Nat) (hll : ll < 256) :
    readLen initState (hh :: ll :: b) = (⟨[], 0, 256 * hh + ll⟩, b) := by
  show readLen ⟨[], 2, 0⟩ (hh :: ll :: b) = _
  rw [show readLen ⟨[], 2, 0⟩ (hh :: ll :: b) =
      readLen ⟨[], 1, 0 ||| (hh <<< ((2 - 1) * 8))⟩ (ll :: b) from by
    simp [readLen]]
  rw [show readLen ⟨[], 1, 0 ||| (hh <<< ((2 - 1) * 8))⟩ (ll :: b) =
      readLen ⟨[], 0, (0 ||| (hh <<< ((2 - 1) * 8))) ||| (ll <<< ((1 - 1) * 8))⟩ b from by
    simp [readLen]]
  rw [readLen_zero _ _ rfl]
  have harith : (0 ||| (hh <<< ((2 - 1) * 8))) ||| (ll <<< ((1 - 1) * 8)) =
      256 * hh + ll := by
    rw [Nat.zero_or]
    norm_num
    exact lor_byte hh ll hll
  rw [harith]

lemma decode_nil_initState : decode initState [] = (initState, []) := by decide

/-- Inversion of encode. -/
lemma encode_eq_some (b eb : List Nat) (h : encode b = some eb) :
    b.length ≤ 65535 ∧ eb = b.length / 256 :: b.length % 256 :: b := by
  unfold encode at h
  split at h
  · exact ⟨by assumption, (Option.some.injEq _ _ ▸ h).symm⟩
  · exact absurd h (by simp)

/-- Decoding one complete encoded frame from the initial state delivers
exactly its body and returns to the initial state. -/
lemma decode_frame (b : List Nat) (h : b.length ≤ 65535) :
    decode initState (b.length / 256 :: b.length % 256 :: b) =
      (initState, [b]) := by
  have hr : readLen initState (b.length / 256 :: b.length % 256 :: b) =
      (⟨[], 0, b.length⟩, b) := by
    rw [readLen_two _ _ _ (Nat.mod_lt _ (by norm_num)), Nat.div_add_mod]
  have hb1 : (readLen initState
      (b.length / 256 :: b.length % 256 :: b)).1.length_bytes_remaining = 0 := by
    rw [hr]
  have hb2 : (readLen initState
      (b.length / 256 :: b.length % 256 :: b)).1.msg_bytes_remaining ≤
      (readLen initState (b.length / 256 :: b.length % 256 :: b)).2.length := by
    rw [hr]
  show decodeLoop ((b.length / 256 :: b.length % 256 :: b).length + 2)
      initState _ = _
  rw [show (b.length / 256 :: b.length % 256 :: b).length + 2 =
      (b.length + 3) + 1 from by simp]
  rw [decodeLoop_succ_msg (b.length + 3) initState _ hb1 hb2, hr]
  show ((decodeLoop (b.length + 3) initState (b.drop b.length)).1,
      ([] ++ b.take b.length) ::
        (decodeLoop (b.length + 3) initState (b.drop b.length)).2) = _
  rw [List.drop_length, List.take_length, List.nil_append]
  rw [← decode_eq_loop initState [] (b.length + 3)
    (by rw [fuelNeed_initState, List.length_nil]; omega)]
  rw [decode_nil_initState]

/-- Decoding the concatenation of the encodings of a list of bodies from the
initial state delivers exactly the bodies, in order, and returns to the
initial state. -/
lemma decode_frames (bs frames : List (List Nat))
    (h : bs.map encode = frames.map some) :
    decode initState frames.flatten = (initState, bs) := by
  induction bs generalizing frames with
  | nil =>
    cases frames with
    | nil => exact decode_nil_initState
    | cons f fs => simp at h
  | cons b bs ih =>
    cases frames with
    | nil => simp at h
    | cons f fs =>
      simp only [List.map_cons, List.cons.injEq] at h
      obtain ⟨hlen, heb⟩ := encode_eq_some b f h.1
      rw [List.flatten_cons, heb, decode_append, decode_frame b hlen]
      show ((decode initState fs.flatten).1,
        [b] ++ (decode initState fs.flatten).2) = _
      rw [ih fs h.2]
      rfl

/-- Feeding any strict front part of one encoded frame from the initial state
delivers no message at all: the codec waits for the missing bytes. -/
lemma decode_front_nomsg (b p q : List Nat) (h : b.length ≤ 65535)
    (hpq : b.length / 256 :: b.length % 256 :: b = p ++ q) (hq : q ≠ []) :
    (decode initState p).2 = [] := by
  match p with
  | [] =>
    rw [decode_nil initState initState_nondegenerate]
  | [x] =>
    have hr : readLen initState [x] =
        (⟨[], 1, 0 ||| (x <<< ((2 - 1) * 8))⟩, []) := by
      simp [readLen, initState]
    show (decodeLoop 3 initState [x]).2 = []
    rw [decodeLoop_succ_stuck 2 initState [x] (by rw [hr]; simp)]
  | x :: y :: p2 =>
    simp only [List.cons_append, List.cons.injEq] at hpq
    obtain ⟨hx, hy, hb⟩ := hpq
    subst hx
    subst hy
    have hqlen : q.length ≠ 0 := fun hq0 => hq (List.length_eq_zero.mp hq0)
    have hlt : p2.length < b.length := by
      rw [hb, List.length_append]
      omega
    have hr : readLen initState
        (b.length / 256 :: b.length % 256 :: p2) = (⟨[], 0, b.length⟩, p2) := by
      rw [readLen_two _ _ _ (Nat.mod_lt _ (by norm_num)), Nat.div_add_mod]
    show (decodeLoop ((b.length / 256 :: b.length % 256 :: p2).length + 2)
      initState _).2 = []
    rw [show (b.length / 256 :: b.length % 256 :: p2).length + 2 =
        (p2.length + 3) + 1 from by simp]
    rw [decodeLoop_succ_more (p2.length + 3) initState _
      (by rw [hr])
      (by rw [hr]; show p2.length < b.length; exact hlt)]

lemma decodeLoopTrace_succ_stuck (fuel : Nat) (s : State) (data : List Nat)
    (h : (readLen s data).1.length_bytes_remaining ≠ 0) :
    decodeLoopTrace (fuel + 1) s data = [] := by
  simp only [decodeLoopTrace]
  rw [if_pos h]

lemma decodeLoopTrace_succ_more (fuel : Nat) (s : State) (data : List Nat)
    (h : (readLen s data).1.length_bytes_remaining = 0)
    (h2 : (readLen s data).2.length < (readLen s data).1.msg_bytes_remaining) :
    decodeLoopTrace (fuel + 1) s data = [] := by
  simp only [decodeLoopTrace]
  rw [if_neg (by simp [h])]
  have htake : (readLen s data).2.take (readLen s data).1.msg_bytes_remaining =
      (readLen s data).2 := List.take_of_length_le (Nat.le_of_lt h2)
  rw [if_pos (by simp [htake]; omega)]

lemma decodeLoopTrace_succ_msg (fuel : Nat) (s : State) (data : List Nat)
    (h : (readLen s data).1.length_bytes_remaining = 0)
    (h2 : (readLen s data).1.msg_bytes_remaining ≤ (readLen s data).2.length) :
    decodeLoopTrace (fuel + 1) s data =
      (initState, (readLen s data).1.msg_buffer ++
          (readLen s data).2.take (readLen s data).1.msg_bytes_remaining) ::
        decodeLoopTrace fuel initState
          ((readLen s data).2.drop (readLen s data).1.msg_bytes_remaining) := by
  simp only [decodeLoopTrace]
  rw [if_neg (by simp [h])]
  rw [if_neg (by simp [List.length_take]; omega)]

/-- Every recorded callback-time state in a trace is the initial state. -/
lemma decodeLoopTrace_states : ∀ fuel (s : State) (data : List Nat),
    ∀ e ∈ decodeLoopTrace fuel s data, e.1 = initState := by
  intro fuel
  induction fuel with
  | zero =>
    intro s data e he
    simp [decodeLoopTrace] at he
  | succ f ih =>
    intro s data e he
    by_cases hl : (readLen s data).1.length_bytes_remaining = 0
    · by_cases hm : (readLen s data).1.msg_bytes_remaining ≤ (readLen s data).2.length
      · rw [decodeLoopTrace_succ_msg f s data hl hm] at he
        rcases List.mem_cons.mp he with he | he
        · rw [he]
        · exact ih initState _ e he
      · rw [decodeLoopTrace_succ_more f s data hl (by omega)] at he
        simp at he
    · rw [decodeLoopTrace_succ_stuck f s data hl] at he
      simp at he

/-- The trace records exactly the delivered messages, in order. -/
lemma decodeLoopTrace_map : ∀ fuel (s : State) (data : List Nat),
    (decodeLoopTrace fuel s data).map Prod.snd = (decodeLoop fuel s data).2 := by
  intro fuel
  induction fuel with
  | zero =>
    intro s data
    simp [decodeLoopTrace, decodeLoop]
  | succ f ih =>
    intro s data
    by_cases hl : (readLen s data).1.length_bytes_remaining = 0
    · by_cases hm : (readLen s data).1.msg_bytes_remaining ≤ (readLen s data).2.length
      · rw [decodeLoopTrace_succ_msg f s data hl hm,
          decodeLoop_succ_msg f s data hl hm]
        simp only [List.map_cons]
        rw [ih initState _]
      · rw [decodeLoopTrace_succ_more f s data hl (by omega),
          decodeLoop_succ_more f s data hl (by omega)]
        rfl
    · rw [decodeLoopTrace_succ_stuck f s data hl,
        decodeLoop_succ_stuck f s data hl]
      rfl

end MessageCodec

lemma unpack_4sH_short (msg : List Nat) (h : msg.length < 6) :
    unpack_4sH msg = none := by
  match msg with
  | [] => rfl
  | [_] => rfl
  | [_, _] => rfl
  | [_, _, _] => rfl
  | [_, _, _, _] => rfl
  | [_, _, _, _, _] => rfl
  | _ :: _ :: _ :: _ :: _ :: _ :: _ => simp at h; omega

lemma unpack_4sH_long (msg : List Nat) (h : 6 ≤ msg.length) :
    ∃ e, unpack_4sH msg = some e := by
  match msg with
  | [] => simp at h
  | [_] => simp at h
  | [_, _] => simp at h
  | [_, _, _] => simp at h
  | [_, _, _, _] => simp at h
  | [_, _, _, _, _] => simp at h
  | _ :: _ :: _ :: _ :: _ :: _ :: _ => exact ⟨_, rfl⟩

namespace AppProxy

/-- With a malformed message in the stream, the callback run handles exactly
the envelopes before it and then an exception escapes. -/
lemma run_malformed (pre post : List (List Nat)) (m : List Nat)
    (hpre : ∀ x ∈ pre, 6 ≤ x.length) (hm : m.length < 6) :
    run_on_received_message (pre ++ m :: post) =
      (pre.filterMap on_received_message, true) := by
  induction pre with
  | nil =>
    show run_on_received_message (m :: post) = ([], true)
    unfold run_on_received_message
    rw [show on_received_message m = none from unpack_4sH_short m hm]
  | cons a pre ih =>
    obtain ⟨e, he⟩ := unpack_4sH_long a (hpre a (by simp))
    have he2 : on_received_message a = some e := he
    show run_on_received_message (a :: (pre ++ m :: post)) = _
    unfold run_on_received_message
    rw [he2, ih (fun x hx => hpre x (by simp [hx]))]
    simp [List.filterMap_cons, he2]

end AppProxy

/-- C1: Frame round-trip: for every byte sequence b with len(b) at most 65535,
feeding MessageCodec.encode(b) to MessageCodec.decode, whether in one chunk or
split into arbitrarily many chunks in order, results in the callback being
invoked exactly once, with argument equal to b. -/
theorem frame_roundtrip (b eb : List Nat) (css : List (List Nat))
    (hbytes : ∀ x ∈ b, x < 256) (hlen : b.length ≤ 65535)
    (henc : MessageCodec.encode b = some eb) (hsplit : css.flatten = eb) :
    MessageCodec.decodeChunks MessageCodec.initState css =
      (MessageCodec.initState, [b]) := by
  obtain ⟨_, heb⟩ := MessageCodec.encode_eq_some b eb henc
  rw [MessageCodec.decodeChunks_flatten _ _ MessageCodec.initState_nondegenerate,
    hsplit, heb, MessageCodec.decode_frame b hlen]

/-- C2: Frame delivery is exactly-once, in order, and never partial: feeding
any list of encoded frames, arbitrarily fragmented into chunks in arrival
order and possibly followed by a strict front part of a further frame,
invokes the callback exactly once per complete frame with the frame bodies in
stream order, and the incomplete trailing frame contributes no invocation. -/
theorem frame_delivery (bs frames css : List (List Nat)) (p q b eb : List Nat)
    (hfr : bs.map MessageCodec.encode = frames.map some)
    (henc : MessageCodec.encode b = some eb) (hpq : eb = p ++ q) (hq : q ≠ [])
    (hsplit : css.flatten = frames.flatten ++ p) :
    (MessageCodec.decodeChunks MessageCodec.initState css).2 = bs := by
  obtain ⟨hlen, heb⟩ := MessageCodec.encode_eq_some b eb henc
  rw [MessageCodec.decodeChunks_flatten _ _ MessageCodec.initState_nondegenerate,
    hsplit, MessageCodec.decode_append, MessageCodec.decode_frames bs frames hfr]
  show bs ++ (MessageCodec.decode MessageCodec.initState p).2 = bs
  rw [MessageCodec.decode_front_nomsg b p q hlen (by rw [← heb, hpq]) hq,
    List.append_nil]

/-- C3: Envelope round-trip: for every 4-byte address, every 16-bit port and
every payload, decoding the envelope encoding yields the identical triple. -/
theorem envelope_roundtrip (addr : List Nat) (port : Nat) (payload : List Nat)
    (hA : addr.length = 4) (hP : port ≤ 65535) :
    (pack_4sH addr port payload).bind unpack_4sH = some (addr, port, payload) := by
  match addr with
  | [] => simp at hA
  | [_] => simp at hA
  | [_, _] => simp at hA
  | [_, _, _] => simp at hA
  | a0 :: a1 :: a2 :: a3 :: rest =>
    have hrest : rest = [] := by
      simp at hA
      exact hA
    subst hrest
    have hpack : pack_4sH [a0, a1, a2, a3] port payload =
        some (a0 :: a1 :: a2 :: a3 :: port / 256 :: port % 256 :: payload) := by
      unfold pack_4sH
      rw [if_pos hP]
      rfl
    rw [hpack]
    show unpack_4sH (a0 :: a1 :: a2 :: a3 :: port / 256 :: port % 256 :: payload) = _
    show some ([a0, a1, a2, a3], 256 * (port / 256) + port % 256, payload) = _
    rw [Nat.div_add_mod]

/-- C4: Reply addressing preserves the original source: a reply datagram for
a query envelope carrying source address A and source port P is written to
the tunnel as the framed envelope of exactly A, P and the reply bytes, and
the capture agent, on receiving that frame, sends the reply payload by UDP
unicast to exactly (A, P). -/
theorem reply_addressing (A : List Nat) (P : Nat) (R : List Nat)
    (hA : A.length = 4) (hP : P ≤ 65535) (hR : R.length ≤ 65507) :
    ∃ env w, pack_4sH A P R = some env ∧
      AppProxy.reply A P R = some w ∧
      MessageCodec.decode MessageCodec.initState w =
        (MessageCodec.initState, [env]) ∧
      TunerProxy.on_message_received_from_app_proxy env = some ((A, P), R) := by
  match A with
  | [] => simp at hA
  | [_] => simp at hA
  | [_, _] => simp at hA
  | [_, _, _] => simp at hA
  | a0 :: a1 :: a2 :: a3 :: rest =>
    have hrest : rest = [] := by
      simp at hA
      exact hA
    subst hrest
    have hpack : pack_4sH [a0, a1, a2, a3] P R =
        some (a0 :: a1 :: a2 :: a3 :: P / 256 :: P % 256 :: R) := by
      unfold pack_4sH
      rw [if_pos hP]
      rfl
    have hlenenv : (a0 :: a1 :: a2 :: a3 :: P / 256 :: P % 256 :: R).length =
        R.length + 6 := by
      simp
    have hlenle : (a0 :: a1 :: a2 :: a3 :: P / 256 :: P % 256 :: R).length ≤ 65535 := by
      rw [hlenenv]
      omega
    have hw : MessageCodec.encode (a0 :: a1 :: a2 :: a3 :: P / 256 :: P % 256 :: R) =
        some ((R.length + 6) / 256 :: (R.length + 6) % 256 ::
          a0 :: a1 :: a2 :: a3 :: P / 256 :: P % 256 :: R) := by
      unfold MessageCodec.encode
      rw [if_pos hlenle, hlenenv]
    refine ⟨a0 :: a1 :: a2 :: a3 :: P / 256 :: P % 256 :: R,
      (R.length + 6) / 256 :: (R.length + 6) % 256 ::
        a0 :: a1 :: a2 :: a3 :: P / 256 :: P % 256 :: R,
      hpack, ?_, ?_, ?_⟩
    · unfold AppProxy.reply
      rw [hpack]
      exact hw
    · have := MessageCodec.decode_frame
        (a0 :: a1 :: a2 :: a3 :: P / 256 :: P % 256 :: R) hlenle
      rw [hlenenv] at this
      exact this
    · unfold TunerProxy.on_message_received_from_app_proxy
      show some (([a0, a1, a2, a3], 256 * (P / 256) + P % 256), R) = _
      rw [Nat.div_add_mod]

/-- C5: MessageCodec.encode(body) returns the concatenation of a 2-byte
big-endian encoding of len(body) followed by body when len(body) is at most
65535, and raises, returning no framed bytes, for every longer body. -/
theorem encode_length_framing (b : List Nat) :
    (b.length ≤ 65535 →
      MessageCodec.encode b = some (b.length / 256 :: b.length % 256 :: b) ∧
      b.length / 256 < 256 ∧ b.length % 256 < 256 ∧
      256 * (b.length / 256) + b.length % 256 = b.length) ∧
    (65535 < b.length → MessageCodec.encode b = none) := by
  constructor
  · intro h
    refine ⟨?_, by omega, by omega, Nat.div_add_mod _ _⟩
    unfold MessageCodec.encode
    rw [if_pos h]
  · intro h
    unfold MessageCodec.encode
    rw [if_neg (by omega)]

/-- C6: Envelope decode on a body shorter than 6 bytes fails: the struct
unpack raises a malformed-input error and no partial triple is extracted, on
either agent. -/
theorem envelope_short_fails (body : List Nat) (h : body.length < 6) :
    AppProxy.on_received_message body = none ∧
    TunerProxy.on_message_received_from_app_proxy body = none := by
  have hu := unpack_4sH_short body h
  refine ⟨hu, ?_⟩
  unfold TunerProxy.on_message_received_from_app_proxy
  rw [hu]
  rfl

/-- C7 counterexample: a chunk containing a malformed frame followed by a
well-formed frame is not handled drop-and-continue: the well-formed frame,
which is processed fine when it arrives on its own (second conjunct), yields
no handled envelope when it follows the malformed frame in the same chunk,
because the struct error escapes the decode loop (first conjunct). -/
theorem malformed_counterexample :
    AppProxy.data_received MessageCodec.initState
        ([0, 3, 1, 2, 3] ++ [0, 6, 9, 9, 9, 9, 0, 7]) = ([], true) ∧
    AppProxy.data_received MessageCodec.initState [0, 6, 9, 9, 9, 9, 0, 7] =
      ([([9, 9, 9, 9], 7, [])], false) := by
  decide

/-- C7 amended: when a frame whose body is shorter than 6 bytes is delivered,
no envelope is extracted from it and the frames before it in the same chunk
are processed normally, but the unpack error escapes the decode loop, so the
frames after it in the same chunk are not processed and the exception reaches
the transport layer (which closes the connection). -/
theorem malformed_aborts_chunk (pre post frames : List (List Nat)) (m : List Nat)
    (hpre : ∀ x ∈ pre, 6 ≤ x.length) (hm : m.length < 6)
    (hfr : (pre ++ m :: post).map MessageCodec.encode = frames.map some) :
    AppProxy.data_received MessageCodec.initState frames.flatten =
      (pre.filterMap AppProxy.on_received_message, true) := by
  unfold AppProxy.data_received
  rw [MessageCodec.decode_frames _ _ hfr]
  show AppProxy.run_on_received_message (pre ++ m :: post) = _
  exact AppProxy.run_malformed pre post m hpre hm

/-- C8: Reentrancy-safe state reset: at every callback invocation of
MessageCodec.decode the codec state observable by the callback equals the
fresh initial state (2 length bytes remaining, 0 body bytes remaining, empty
buffer), and the recorded invocations are exactly the delivered messages. -/
theorem reset_before_callback (s : MessageCodec.State) (data : List Nat) :
    (∀ e ∈ MessageCodec.decodeTrace s data, e.1 = MessageCodec.initState) ∧
    (MessageCodec.decodeTrace s data).map Prod.snd =
      (MessageCodec.decode s data).2 :=
  ⟨MessageCodec.decodeLoopTrace_states _ s data,
    MessageCodec.decodeLoopTrace_map _ s data⟩

/-- C9: The capture agent never writes to the tunnel while disconnected and
never buffers: with no tunnel transport the datagram produces no write at all
(the handler holds no queue, so the datagram is dropped), and with a
transport present the enveloped and framed message is written immediately. -/
theorem drop_when_disconnected (ip : List Nat) (port : Nat) (data : List Nat) :
    TunerProxy.datagram_received none ip port data = none ∧
    (port ≤ 65535 → data.length ≤ 65507 →
      ∃ env w, pack_4sH ip port data = some env ∧
        MessageCodec.encode env = some w ∧
        TunerProxy.datagram_received (some ()) ip port data = some w) := by
  refine ⟨rfl, fun hP hD => ?_⟩
  have hpack : pack_4sH ip port data =
      some ((ip ++ List.replicate 4 0).take 4 ++ port / 256 :: port % 256 :: data) := by
    unfold pack_4sH
    rw [if_pos hP]
  have hlen4 : ((ip ++ List.replicate 4 0).take 4).length = 4 := by
    rw [List.length_take, List.length_append, List.length_replicate]
    omega
  have hlenenv : ((ip ++ List.replicate 4 0).take 4 ++
      port / 256 :: port % 256 :: data).length = data.length + 6 := by
    rw [List.length_append, hlen4]
    simp
    omega
  have hw : MessageCodec.encode ((ip ++ List.replicate 4 0).take 4 ++
      port / 256 :: port % 256 :: data) = some (((data.length + 6) / 256) ::
        ((data.length + 6) % 256) ::
        ((ip ++ List.replicate 4 0).take 4 ++ port / 256 :: port % 256 :: data)) := by
    unfold MessageCodec.encode
    rw [if_pos (by rw [hlenenv]; omega), hlenenv]
  refine ⟨_, _, hpack, hw, ?_⟩
  show (pack_4sH ip port data).bind MessageCodec.encode = _
  rw [hpack]
  show MessageCodec.encode _ = _
  rw [hw]

/-- C10: Frame-decoder state survives tunnel connection replacement: the
single class-level codec is fed by every successive connection and nothing
resets it, so when a connection ends after delivering only part of a frame,
the first bytes of the next connection are consumed as the continuation of
that frame, delivering its body across the connection boundary, and only the
bytes after it are parsed as fresh frames. -/
theorem codec_survives_reconnect (b eb p q rest : List Nat)
    (henc : MessageCodec.encode b = some eb) (hpq : eb = p ++ q) :
    MessageCodec.decodeChunks MessageCodec.initState [p, q ++ rest] =
      ((MessageCodec.decode MessageCodec.initState rest).1,
        b :: (MessageCodec.decode MessageCodec.initState rest).2) := by
  obtain ⟨hlen, heb⟩ := MessageCodec.encode_eq_some b eb henc
  rw [MessageCodec.decodeChunks_flatten _ _ MessageCodec.initState_nondegenerate]
  show MessageCodec.decode MessageCodec.initState (p ++ ((q ++ rest) ++ [])) = _
  rw [List.append_nil, ← List.append_assoc, ← hpq, heb,
    MessageCodec.decode_append, MessageCodec.decode_frame b hlen]
  rfl

/-- Witness for C1: the frame for body [10, 20, 30], split into three chunks,
delivers exactly that body once. -/
theorem frame_roundtrip_witness :
    MessageCodec.encode [10, 20, 30] = some [0, 3, 10, 20, 30] ∧
    ([[0], [3, 10], [20, 30]] : List (List Nat)).flatten = [0, 3, 10, 20, 30] ∧
    MessageCodec.decodeChunks MessageCodec.initState [[0], [3, 10], [20, 30]] =
      (MessageCodec.initState, [[10, 20, 30]]) :=
  ⟨by decide, by decide,
    frame_roundtrip [10, 20, 30] [0, 3, 10, 20, 30] [[0], [3, 10], [20, 30]]
      (by decide) (by decide) (by decide) (by decide)⟩

/-- Witness for C2: two frames plus a strict front part of a third, split
into two chunks across frame boundaries, deliver exactly the two complete
bodies in order. -/
theorem frame_delivery_witness :
    ([[7], [8, 9]] : List (List Nat)).map MessageCodec.encode =
      ([[0, 1, 7], [0, 2, 8, 9]] : List (List Nat)).map some ∧
    ([[0, 1, 7, 0], [2, 8, 9, 0, 2, 5]] : List (List Nat)).flatten =
      ([[0, 1, 7], [0, 2, 8, 9]] : List (List Nat)).flatten ++ [0, 2, 5] ∧
    (MessageCodec.decodeChunks MessageCodec.initState
      [[0, 1, 7, 0], [2, 8, 9, 0, 2, 5]]).2 = [[7], [8, 9]] :=
  ⟨by decide, by decide,
    frame_delivery [[7], [8, 9]] [[0, 1, 7], [0, 2, 8, 9]]
      [[0, 1, 7, 0], [2, 8, 9, 0, 2, 5]] [0, 2, 5] [6] [5, 6] [0, 2, 5, 6]
      (by decide) (by decide) (by decide) (by decide) (by decide)⟩

/-- Witness for C3: a concrete envelope round-trips. -/
theorem envelope_roundtrip_witness :
    ([10, 0, 0, 5] : List Nat).length = 4 ∧ 54321 ≤ 65535 ∧
    (pack_4sH [10, 0, 0, 5] 54321 [1, 2]).bind unpack_4sH =
      some ([10, 0, 0, 5], 54321, [1, 2]) :=
  ⟨by decide, by decide,
    envelope_roundtrip [10, 0, 0, 5] 54321 [1, 2] (by decide) (by decide)⟩

/-- Witness for C4: a concrete reply keeps the original source address and
port through the tunnel and back out as a unicast destination. -/
theorem reply_addressing_witness :
    ([10, 0, 0, 5] : List Nat).length = 4 ∧
    (∃ env w, pack_4sH [10, 0, 0, 5] 54321 [1, 2] = some env ∧
      AppProxy.reply [10, 0, 0, 5] 54321 [1, 2] = some w ∧
      MessageCodec.decode MessageCodec.initState w =
        (MessageCodec.initState, [env]) ∧
      TunerProxy.on_message_received_from_app_proxy env =
        some (([10, 0, 0, 5], 54321), [1, 2])) :=
  ⟨by decide,
    reply_addressing [10, 0, 0, 5] 54321 [1, 2] (by decide) (by decide) (by decide)⟩

/-- Witness for C5: a short body is framed with its big-endian length, and a
body of 65536 bytes makes encode fail. -/
theorem encode_length_framing_witness :
    MessageCodec.encode [1, 2, 3] =
      some (([1, 2, 3] : List Nat).length / 256 ::
        ([1, 2, 3] : List Nat).length % 256 :: [1, 2, 3]) ∧
    MessageCodec.encode (List.replicate 65536 0) = none :=
  ⟨((encode_length_framing [1, 2, 3]).1 (by decide)).1,
    (encode_length_framing (List.replicate 65536 0)).2
      (by rw [List.length_replicate]; omega)⟩

/-- Witness for C6: a 3-byte body fails to unpack on both agents. -/
theorem envelope_short_fails_witness :
    ([1, 2, 3] : List Nat).length < 6 ∧
    AppProxy.on_received_message [1, 2, 3] = none ∧
    TunerProxy.on_message_received_from_app_proxy [1, 2, 3] = none :=
  ⟨by decide, (envelope_short_fails [1, 2, 3] (by decide)).1,
    (envelope_short_fails [1, 2, 3] (by decide)).2⟩

/-- Witness for the C7 amended claim: a chunk holding a well-formed frame,
then a malformed frame, then another well-formed frame handles only the first
envelope and aborts. -/
theorem malformed_aborts_chunk_witness :
    ([[9, 9, 9, 9, 0, 7]] ++ [1, 2, 3] :: [[5, 5, 5, 5, 5, 5]] :
        List (List Nat)).map MessageCodec.encode =
      ([[0, 6, 9, 9, 9, 9, 0, 7], [0, 3, 1, 2, 3], [0, 6, 5, 5, 5, 5, 5, 5]] :
        List (List Nat)).map some ∧
    AppProxy.data_received MessageCodec.initState
      ([[0, 6, 9, 9, 9, 9, 0, 7], [0, 3, 1, 2, 3], [0, 6, 5, 5, 5, 5, 5, 5]] :
        List (List Nat)).flatten = ([([9, 9, 9, 9], 7, [])], true) :=
  ⟨by decide,
    malformed_aborts_chunk [[9, 9, 9, 9, 0, 7]] [[5, 5, 5, 5, 5, 5]]
      [[0, 6, 9, 9, 9, 9, 0, 7], [0, 3, 1, 2, 3], [0, 6, 5, 5, 5, 5, 5, 5]]
      [1, 2, 3] (by decide) (by decide) (by decide)⟩

/-- Witness for C8: on a concrete stream the single recorded callback
invocation observes the initial state and the trace carries exactly the
delivered message. -/
theorem reset_before_callback_witness :
    (MessageCodec.initState, ([55] : List Nat)).1 = MessageCodec.initState ∧
    (MessageCodec.decodeTrace MessageCodec.initState [0, 1, 55]).map Prod.snd =
      (MessageCodec.decode MessageCodec.initState [0, 1, 55]).2 :=
  ⟨(reset_before_callback MessageCodec.initState [0, 1, 55]).1
      (MessageCodec.initState, [55]) (by decide),
    (reset_before_callback MessageCodec.initState [0, 1, 55]).2⟩

/-- Witness for C9: a concrete datagram is dropped while disconnected and
written framed while connected. -/
theorem drop_when_disconnected_witness :
    TunerProxy.datagram_received none [10, 0, 0, 5] 54321 [1, 2] = none ∧
    (∃ env w, pack_4sH [10, 0, 0, 5] 54321 [1, 2] = some env ∧
      MessageCodec.encode env = some w ∧
      TunerProxy.datagram_received (some ()) [10, 0, 0, 5] 54321 [1, 2] =
        some w) :=
  ⟨(drop_when_disconnected [10, 0, 0, 5] 54321 [1, 2]).1,
    (drop_when_disconnected [10, 0, 0, 5] 54321 [1, 2]).2 (by decide) (by decide)⟩

/-- Witness for C10: a frame split across a connection boundary is completed
by the first bytes of the new connection, and the remaining bytes are parsed
as a fresh frame. -/
theorem codec_survives_reconnect_witness :
    MessageCodec.encode [7, 8] = some [0, 2, 7, 8] ∧
    ([0, 2, 7, 8] : List Nat) = [0] ++ [2, 7, 8] ∧
    MessageCodec.decodeChunks MessageCodec.initState [[0], [2, 7, 8] ++ [0, 0]] =
      (MessageCodec.initState, [[7, 8], []]) :=
  ⟨by decide, by decide,
    codec_survives_reconnect [7, 8] [0, 2, 7, 8] [0] [2, 7, 8] [0, 0]
      (by decide) (by decide)⟩

end HdhomerunProxy
